import Mathlib

/-!
# Streamwall orchestration layer: a shallow embedding

This file embeds the reconciliation scheduler (`setViews`), the listening-focus
routing (`setListeningView`) of `src/node/StreamWindow.js`, and the
content-discovery entry point (`main` of the layer preload script) as Lean
definitions, and proves properties of them.

The slot lifecycle machine (`viewStateMachine`), the geometry partitioner
(`boxesFromViewURLMap`) and the numeric constants are imported by
`StreamWindow.js` from files that are not part of the available sources;
where one of them is needed it is modelled from the specification and marked
as such in its doc comment.  Regions ("boxes") are treated as inputs of the
scheduler, exactly as `setViews` receives them.
-/

/-- Lifecycle states of a rendering slot.
Modelled from the spec: §4.2 names the states `idle`, `loading`, `displaying`
(the `viewStateMachine` source is not available). -/
inductive VState
  | idle
  | loading
  | displaying
deriving DecidableEq

/-- The position object `setViews` builds for a box: pixel rectangle plus the
spanned cell indices (the code stores `spaces` inside the `pos` object). -/
structure Pos where
  x : Nat
  y : Nat
  width : Nat
  height : Nat
  spaces : List Nat
deriving DecidableEq

/-- A slot of the pool: lifecycle state plus the machine context that
`StreamWindow` reads (`state.context.url`, `state.context.pos`) and the mute
flag set by `MUTE`/`UNMUTE`. -/
structure Slot where
  state : VState
  url : Option String
  pos : Option Pos
  muted : Bool
deriving DecidableEq

/-- Commands sent to a slot's state machine by `StreamWindow`. -/
inductive Cmd
  | display (url : String) (pos : Pos)
  | clear
  | mute
  | unmute
deriving DecidableEq

/-- One step of the slot state machine.
Modelled from the spec: §4.2 transition table (the `viewStateMachine` source is
not available).  `DISPLAY` from `idle` starts loading; `DISPLAY` with the same
url keeps the lifecycle state and only updates the position (the no-reload
optimisation); `DISPLAY` with a different url re-navigates (`loading`);
`CLEAR` returns to `idle` clearing url and position; `MUTE`/`UNMUTE` only set
the mute flag. -/
def Slot.send (s : Slot) : Cmd → Slot
  | Cmd.display u p =>
    match s.state with
    | VState.idle => ⟨VState.loading, some u, some p, s.muted⟩
    | VState.loading =>
      if s.url = some u then ⟨VState.loading, s.url, some p, s.muted⟩
      else ⟨VState.loading, some u, some p, s.muted⟩
    | VState.displaying =>
      if s.url = some u then ⟨VState.displaying, s.url, some p, s.muted⟩
      else ⟨VState.loading, some u, some p, s.muted⟩
  | Cmd.clear => ⟨VState.idle, none, none, s.muted⟩
  | Cmd.mute => ⟨s.state, s.url, s.pos, true⟩
  | Cmd.unmute => ⟨s.state, s.url, s.pos, false⟩

/-- The spanned cell-index set of a slot, read from `state.context.pos.spaces`
as `setListeningView` does (a slot with no position spans no cells). -/
def Slot.spaces (s : Slot) : List Nat :=
  match s.pos with
  | some p => p.spaces
  | none => []

/-- A box produced by the geometry partitioner, as destructured by `setViews`:
`const { url, x, y, w, h, spaces } = box`.  The url may be absent. -/
structure Box where
  url : Option String
  x : Nat
  y : Nat
  w : Nat
  h : Nat
  spaces : List Nat
deriving DecidableEq

/-- JavaScript truthiness of a box's url, as tested by `if (!url) continue`:
an absent url and the empty string are falsy. -/
def Box.truthyUrl (b : Box) : Option String :=
  match b.url with
  | none => none
  | some u => if u = "" then none else some u

/-- Modelled from the spec: the grid dimension `GRID_COUNT` is a fixed small
constant, "a fixed N×N grid (N is a small constant, e.g. 10)" (the constants
source is not available). -/
def GRID_COUNT : Nat := 10

/-- Modelled from the spec: fixed per-cell pixel width (constants source not
available; the exact value is irrelevant to every property proved here). -/
def SPACE_WIDTH : Nat := 192

/-- Modelled from the spec: fixed per-cell pixel height (constants source not
available; the exact value is irrelevant to every property proved here). -/
def SPACE_HEIGHT : Nat := 108

/-- The `pos` object `setViews` builds for a box: cell rectangle scaled by the
per-cell pixel size, with the spanned cell indices attached. -/
def boxPos (b : Box) : Pos :=
  ⟨SPACE_WIDTH * b.x, SPACE_HEIGHT * b.y, SPACE_WIDTH * b.w, SPACE_HEIGHT * b.h, b.spaces⟩

/-- `views.find((s) => unusedViews.has(s) && p(s))`: index of the first pool
entry that is still unclaimed and satisfies `p`, scanning in pool order.
The pool is the list of slots paired with their claimed flag
(`true` = removed from `unusedViews`). -/
def findUnclaimed (p : Slot → Bool) : List (Slot × Bool) → Option Nat
  | [] => none
  | e :: rest =>
    if !e.2 && p e.1 then some 0
    else (findUnclaimed p rest).map (· + 1)

/-- The candidate search of `setViews` for one box: first an unclaimed slot
whose current url equals the box url, else an unclaimed slot not in
`displaying` state. -/
def chooseSlot (pool : List (Slot × Bool)) (url : String) : Option Nat :=
  match findUnclaimed (fun s => s.url == some url) pool with
  | some i => some i
  | none => findUnclaimed (fun s => !(s.state == VState.displaying)) pool

/-- `space.send(cmd)` followed by `unusedViews.delete(space)`: send a command
to the slot at index `i` and mark it claimed. -/
def sendAt : List (Slot × Bool) → Nat → Cmd → List (Slot × Bool)
  | [], _, _ => []
  | e :: rest, 0, c => (e.1.send c, true) :: rest
  | e :: rest, n + 1, c => e :: sendAt rest n c

/-- The box loop of `setViews`: skip falsy urls, pick a candidate slot, send
`DISPLAY` and claim it.  Returns the updated pool and the log of commands
sent; `none` models the crash (`space.send` on `undefined`) when no candidate
slot exists. -/
def setViewsGo : List (Slot × Bool) → List Box → Option (List (Slot × Bool) × List (Nat × Cmd))
  | pool, [] => some (pool, [])
  | pool, b :: boxes =>
    match b.truthyUrl with
    | none => setViewsGo pool boxes
    | some u =>
      match chooseSlot pool u with
      | none => none
      | some i =>
        (setViewsGo (sendAt pool i (Cmd.display u (boxPos b))) boxes).map
          (fun r => (r.1, (i, Cmd.display u (boxPos b)) :: r.2))

/-- The final loop of `setViews`: every slot still unclaimed receives `CLEAR`.
`i` is the pool index of the first entry.  Returns the final slots and the
`CLEAR` log. -/
def clearFrom : Nat → List (Slot × Bool) → List Slot × List (Nat × Cmd)
  | _, [] => ([], [])
  | i, e :: rest =>
    let r := clearFrom (i + 1) rest
    if e.2 then (e.1 :: r.1, r.2)
    else (e.1.send Cmd.clear :: r.1, (i, Cmd.clear) :: r.2)

/-- `StreamWindow.setViews`, over the boxes the geometry step produced: run the
box loop from an all-unclaimed pool, then clear every unclaimed slot.
Returns the final slots and the full command log, or `none` when some box
finds no candidate slot (the code then calls `send` on `undefined`). -/
def setViews (slots : List Slot) (boxes : List Box) : Option (List Slot × List (Nat × Cmd)) :=
  match setViewsGo (slots.map (fun s => (s, false))) boxes with
  | none => none
  | some (pool, log) =>
    let c := clearFrom 0 pool
    some (c.1, log ++ c.2)

/-- Slot indices that were sent a `DISPLAY` command in a log. -/
def displayTargets (log : List (Nat × Cmd)) : List Nat :=
  log.filterMap (fun e =>
    match e.2 with
    | Cmd.display _ _ => some e.1
    | _ => none)

/-- Slot indices that were sent a `CLEAR` command in a log. -/
def clearTargets (log : List (Nat × Cmd)) : List Nat :=
  log.filterMap (fun e =>
    match e.2 with
    | Cmd.clear => some e.1
    | _ => none)

/-- The url carried by a `DISPLAY` command. -/
def cmdUrl : Cmd → Option String
  | Cmd.display u _ => some u
  | _ => none

/-- The urls of the `DISPLAY` commands of a log, in order. -/
def logUrls (log : List (Nat × Cmd)) : List String :=
  log.filterMap (fun e => cmdUrl e.2)

/-- Snapshot-variant candidate search: like `findUnclaimed`, but slot data is
read from an immutable snapshot taken before any command was issued, with only
the claimed flags live. -/
def findUnclaimedSnap (p : Slot → Bool) : List Slot → List Bool → Option Nat
  | s :: snap, c :: claimed =>
    if !c && p s then some 0
    else (findUnclaimedSnap p snap claimed).map (· + 1)
  | _, _ => none

/-- Snapshot-variant of `chooseSlot`: same two preference tiers, matching
against the snapshot. -/
def chooseSlotSnap (snap : List Slot) (claimed : List Bool) (url : String) : Option Nat :=
  match findUnclaimedSnap (fun s => s.url == some url) snap claimed with
  | some i => some i
  | none => findUnclaimedSnap (fun s => !(s.state == VState.displaying)) snap claimed

/-- Mark index `i` claimed in a claimed-flag list. -/
def setClaimed : List Bool → Nat → List Bool
  | [], _ => []
  | _ :: rest, 0 => true :: rest
  | c :: rest, n + 1 => c :: setClaimed rest n

/-- The two-phase ("read-then-act") variant of the box loop of `setViews`:
the whole pool's (url, state) snapshot is read once before any command is
issued; only the claimed set evolves.  Returns the region-to-slot assignment
(chosen slot index per url-bearing box, in box order). -/
def snapGo (snap : List Slot) : List Bool → List Box → Option (List Nat)
  | _, [] => some []
  | claimed, b :: boxes =>
    match b.truthyUrl with
    | none => snapGo snap claimed boxes
    | some u =>
      match chooseSlotSnap snap claimed u with
      | none => none
      | some i => (snapGo snap (setClaimed claimed i) boxes).map (fun r => i :: r)

/-- The loop of `StreamWindow.setListeningView` starting at pool index `i`:
slots not in `displaying` state are skipped; every displaying slot is sent
`UNMUTE` when its spanned cells contain `viewIdx` and `MUTE` otherwise.
Returns the updated slots and the command log. -/
def listenFrom (viewIdx : Nat) : Nat → List Slot → List Slot × List (Nat × Cmd)
  | _, [] => ([], [])
  | i, s :: rest =>
    if s.state == VState.displaying then
      (s.send (if (Slot.spaces s).contains viewIdx then Cmd.unmute else Cmd.mute) ::
          (listenFrom viewIdx (i + 1) rest).1,
        (i, if (Slot.spaces s).contains viewIdx then Cmd.unmute else Cmd.mute) ::
          (listenFrom viewIdx (i + 1) rest).2)
    else (s :: (listenFrom viewIdx (i + 1) rest).1, (listenFrom viewIdx (i + 1) rest).2)

/-- `StreamWindow.setListeningView(viewIdx)`. -/
def setListeningView (slots : List Slot) (viewIdx : Nat) : List Slot × List (Nat × Cmd) :=
  listenFrom viewIdx 0 slots

/-- Content kinds the layer preload script's `main` distinguishes
(`content.kind`). -/
inductive ContentKind
  | video
  | audio
  | web
  | other
deriving DecidableEq

/-- The metadata `findVideo` reports on success (`{ title: document.title }`). -/
structure VideoInfo where
  title : String
deriving DecidableEq

/-- IPC messages the layer preload script can send for one load. -/
inductive IpcMsg
  | viewInfo (title : String)
  | viewLoaded
  | viewError
deriving DecidableEq

/-- The environment one run of `main` observes: whether the initial
`view-init` / page-load await rejects, the content kind, and the outcome of
`findVideo` (`none` = it throws, e.g. no video found within the timeout). -/
structure MainEnv where
  initFails : Bool
  kind : ContentKind
  findVideoResult : Option VideoInfo
deriving DecidableEq

/-- The IPC messages sent by one run of `main().catch(...)` of the layer
preload script, in order: on the video/audio path a successful `findVideo`
leads to `view-info` then `view-loaded`; any rejection of `main`'s promise
reaches the single catch handler, which sends `view-error`; the `web` and
unrecognized kinds send only `view-loaded`.  (The `options` listener sends no
messages.) -/
def mainRun (env : MainEnv) : List IpcMsg :=
  if env.initFails then [IpcMsg.viewError]
  else
    match env.kind with
    | ContentKind.video =>
      match env.findVideoResult with
      | none => [IpcMsg.viewError]
      | some info => [IpcMsg.viewInfo info.title, IpcMsg.viewLoaded]
    | ContentKind.audio =>
      match env.findVideoResult with
      | none => [IpcMsg.viewError]
      | some info => [IpcMsg.viewInfo info.title, IpcMsg.viewLoaded]
    | ContentKind.web => [IpcMsg.viewLoaded]
    | ContentKind.other => [IpcMsg.viewLoaded]

/-- A pool entry is claimed at index `i`. -/
def claimedIdx (pool : List (Slot × Bool)) (i : Nat) : Prop :=
  ∃ s, pool.get? i = some (s, true)

/-- Number of pool entries that are unclaimed and not in `displaying` state:
the resource the fallback preference tier of `chooseSlot` consumes. -/
def undCount (pool : List (Slot × Bool)) : Nat :=
  (pool.filter (fun e => !e.2 && !(e.1.state == VState.displaying))).length

/-- A live pool agrees with a snapshot plus claimed-flag list: the flags
coincide and every unclaimed entry still holds its snapshot slot. -/
def Agrees : List (Slot × Bool) → List Slot → List Bool → Prop
  | [], [], [] => True
  | e :: pool, s :: snap, c :: claimed =>
    e.2 = c ∧ (e.2 = false → e.1 = s) ∧ Agrees pool snap claimed
  | _, _, _ => False

/-- Invariant for replaying a display log against a pool `Q`: every logged
target is unclaimed in `Q` and already holds exactly the url and position of
its command in a non-idle state, no other entry of `Q` holds a logged url,
and the logged targets are distinct. -/
def PassInv (Q : List (Slot × Bool)) (log : List (Nat × Cmd)) : Prop :=
  (∀ e ∈ log, ∃ u p s, e.2 = Cmd.display u p ∧ Q.get? e.1 = some (s, false) ∧
    s.url = some u ∧ s.pos = some p ∧ s.state ≠ VState.idle) ∧
  (∀ e ∈ log, ∀ u p j s b, e.2 = Cmd.display u p → Q.get? j = some (s, b) →
    s.url = some u → j = e.1) ∧
  (log.map Prod.fst).Nodup

/-- The clear phase applied entry-wise: a claimed entry keeps its slot, an
unclaimed one gets `CLEAR`; the claimed flags are kept.  `(clearFrom k pool).1`
is the slot part of `reclaim pool`. -/
def reclaim (pool : List (Slot × Bool)) : List (Slot × Bool) :=
  pool.map (fun e => (if e.2 then e.1 else e.1.send Cmd.clear, e.2))

/-- An all-idle ten-slot pool (the pool `init` builds, indices 0 through 9),
used to instantiate proved theorems at concrete inputs. -/
def demoPool : List Slot := List.replicate 10 ⟨VState.idle, none, none, false⟩

/-- A concrete region: url `"alpha"` over two cells. -/
def demoBox : Box := ⟨some "alpha", 0, 0, 2, 1, [0, 1]⟩

/-- The (successful) result of reconciling `demoPool` against `[demoBox]`. -/
def demoRun : List Slot × List (Nat × Cmd) := (setViews demoPool [demoBox]).getD ([], [])

/-- A slot displaying url `"v"`. -/
def w1slotV : Slot := ⟨VState.displaying, some "v", some ⟨0, 0, 192, 108, [0]⟩, false⟩

/-- A slot displaying url `"u"`. -/
def w1slotU : Slot := ⟨VState.displaying, some "u", some ⟨0, 0, 192, 108, [1]⟩, false⟩

/-- A two-entry pool, both entries unclaimed. -/
def w1pool : List (Slot × Bool) := [(w1slotV, false), (w1slotU, false)]

/-- Ten slots, all displaying a url different from `"u"`. -/
def c2pool : List Slot :=
  List.replicate 10 ⟨VState.displaying, some "other", some ⟨0, 0, 192, 108, [0]⟩, false⟩

/-- One region requesting url `"u"`. -/
def c2box : Box := ⟨some "u", 0, 0, 1, 1, [0]⟩

/-- A pool with a single displaying, unmuted slot spanning cell 0. -/
def c4pool : List Slot := [⟨VState.displaying, some "u", some ⟨0, 0, 192, 108, [0]⟩, false⟩]

/-- Ten slots: slot 0 loading url `"v"`, slot 1 displaying url `"u"`, the rest
idle — a state reachable by an earlier layout `{v, u}` followed by a
`content-ready` on slot 1. -/
def c8pool : List Slot :=
  ⟨VState.loading, some "v", some ⟨0, 0, 192, 108, [5]⟩, false⟩ ::
  ⟨VState.displaying, some "u", some ⟨0, 0, 192, 108, [6]⟩, false⟩ ::
  List.replicate 8 ⟨VState.idle, none, none, false⟩

/-- Two regions sharing the url `"u"` (an L-shaped same-url area yields two
maximal rectangles with the same url). -/
def c8boxes : List Box := [⟨some "u", 0, 0, 1, 1, [0]⟩, ⟨some "u", 2, 2, 1, 1, [22]⟩]

/-- First reconciliation of `c8pool` against `c8boxes`. -/
def c8run1 : Option (List Slot × List (Nat × Cmd)) := setViews c8pool c8boxes

/-- Second reconciliation, applied to the outcome of the first. -/
def c8run2 : Option (List Slot × List (Nat × Cmd)) :=
  c8run1.bind (fun r => setViews r.1 c8boxes)

/-- A box whose url is the empty string: falsy under `if (!url) continue`. -/
def c10box : Box := ⟨some "", 1, 1, 1, 1, [11]⟩

/-- A second demo region, with a url distinct from `demoBox`'s. -/
def c8wBox : Box := ⟨some "beta", 4, 4, 1, 1, [44]⟩

/-- The (successful) result of reconciling the demo pool against two
distinct-url regions. -/
def c8wRun : List Slot × List (Nat × Cmd) :=
  (setViews demoPool [demoBox, c8wBox]).getD ([], [])

/-! ## Basic lemmas about the candidate search -/

theorem findUnclaimed_eq_some (p : Slot → Bool) :
    ∀ (pool : List (Slot × Bool)) (i : Nat), findUnclaimed p pool = some i →
      ∃ s, pool.get? i = some (s, false) ∧ p s = true := by
  intro pool
  induction pool with
  | nil => intro i h; simp [findUnclaimed] at h
  | cons e rest ih =>
    obtain ⟨s, b⟩ := e
    intro i h
    rw [findUnclaimed] at h
    by_cases hc : (!b && p s) = true
    · rw [if_pos hc] at h
      simp only [Bool.and_eq_true, Bool.not_eq_true'] at hc
      cases h
      exact ⟨s, by rw [hc.1]; rfl, hc.2⟩
    · rw [if_neg hc] at h
      obtain ⟨j, hj, hji⟩ := Option.map_eq_some'.mp h
      obtain ⟨s', hs', hp'⟩ := ih j hj
      subst hji
      exact ⟨s', hs', hp'⟩

theorem findUnclaimed_eq_none (p : Slot → Bool) :
    ∀ (pool : List (Slot × Bool)), findUnclaimed p pool = none →
      ∀ e ∈ pool, (!e.2 && p e.1) = false := by
  intro pool
  induction pool with
  | nil => intro _ e he; simp at he
  | cons e₀ rest ih =>
    intro h e he
    rw [findUnclaimed] at h
    by_cases hc : (!e₀.2 && p e₀.1) = true
    · rw [if_pos hc] at h; cases h
    · rw [if_neg hc] at h
      rcases List.mem_cons.mp he with rfl | hmem
      · exact Bool.eq_false_iff.mpr hc
      · exact ih (Option.map_eq_none'.mp h) e hmem

theorem findUnclaimed_eq_none_get? (p : Slot → Bool) (pool : List (Slot × Bool))
    (h : findUnclaimed p pool = none) :
    ∀ i s, pool.get? i = some (s, false) → p s = false := by
  intro i s hget
  have hmem : (s, false) ∈ pool := List.get?_mem hget
  have := findUnclaimed_eq_none p pool h (s, false) hmem
  simpa using this

theorem findUnclaimed_isSome (p : Slot → Bool) :
    ∀ (pool : List (Slot × Bool)) (i : Nat) (s : Slot),
      pool.get? i = some (s, false) → p s = true → (findUnclaimed p pool).isSome := by
  intro pool
  induction pool with
  | nil => intro i s h; simp at h
  | cons e rest ih =>
    intro i s h hp
    rw [findUnclaimed]
    by_cases hc : (!e.2 && p e.1) = true
    · rw [if_pos hc]; rfl
    · rw [if_neg hc]
      cases i with
      | zero =>
        rw [List.get?_cons_zero] at h
        cases h
        simp [hp] at hc
      | succ n =>
        rw [List.get?_cons_succ] at h
        have := ih n s h hp
        rw [Option.isSome_map']
        exact this

theorem chooseSlot_eq_some (pool : List (Slot × Bool)) (u : String) (i : Nat)
    (h : chooseSlot pool u = some i) :
    ∃ s, pool.get? i = some (s, false) := by
  unfold chooseSlot at h
  cases hf : findUnclaimed (fun s => s.url == some u) pool with
  | some j =>
    rw [hf] at h
    cases h
    obtain ⟨s, hs, _⟩ := findUnclaimed_eq_some _ pool i hf
    exact ⟨s, hs⟩
  | none =>
    rw [hf] at h
    obtain ⟨s, hs, _⟩ := findUnclaimed_eq_some _ pool i h
    exact ⟨s, hs⟩

/-! ## Basic lemmas about `sendAt` and `setClaimed` -/

theorem sendAt_length (c : Cmd) :
    ∀ (pool : List (Slot × Bool)) (i : Nat), (sendAt pool i c).length = pool.length := by
  intro pool
  induction pool with
  | nil => intro i; rfl
  | cons e rest ih =>
    intro i
    cases i with
    | zero => rfl
    | succ n => simp [sendAt, ih n]

theorem sendAt_get? (c : Cmd) :
    ∀ (pool : List (Slot × Bool)) (i j : Nat),
      (sendAt pool i c).get? j =
        if j = i then (pool.get? i).map (fun e => (e.1.send c, true)) else pool.get? j := by
  intro pool
  induction pool with
  | nil =>
    intro i j
    simp [sendAt]
  | cons e rest ih =>
    intro i j
    cases i with
    | zero =>
      cases j with
      | zero => simp [sendAt]
      | succ m => simp [sendAt]
    | succ n =>
      cases j with
      | zero => simp [sendAt]
      | succ m =>
        have := ih n m
        simp only [sendAt, List.get?_cons_succ, this, Nat.succ.injEq]

/-! ## Lemmas about the slot state machine steps -/

theorem send_display_props (s : Slot) (u : String) (p : Pos) :
    (s.send (Cmd.display u p)).url = some u ∧ (s.send (Cmd.display u p)).pos = some p ∧
      (s.send (Cmd.display u p)).state ≠ VState.idle := by
  obtain ⟨st, su, sp, sm⟩ := s
  cases st with
  | idle => simp [Slot.send]
  | loading =>
    by_cases hu : su = some u
    · simp [Slot.send, hu]
    · simp [Slot.send, hu]
  | displaying =>
    by_cases hu : su = some u
    · simp [Slot.send, hu]
    · simp [Slot.send, hu]

theorem send_display_noop (s : Slot) (u : String) (p : Pos)
    (hu : s.url = some u) (hp : s.pos = some p) (hs : s.state ≠ VState.idle) :
    s.send (Cmd.display u p) = s := by
  obtain ⟨st, su, sp, sm⟩ := s
  simp only at hu hp
  subst hu hp
  cases st with
  | idle => exact absurd rfl hs
  | loading => simp [Slot.send]
  | displaying => simp [Slot.send]

theorem send_clear_idem (s : Slot) : (s.send Cmd.clear).send Cmd.clear = s.send Cmd.clear := rfl

/-! ## Structural lemmas about the box loop -/

theorem setViewsGo_cons (pool : List (Slot × Bool)) (b : Box) (boxes : List Box)
    (pool' : List (Slot × Bool)) (log : List (Nat × Cmd))
    (h : setViewsGo pool (b :: boxes) = some (pool', log)) :
    (b.truthyUrl = none ∧ setViewsGo pool boxes = some (pool', log)) ∨
    (∃ u i log', b.truthyUrl = some u ∧ chooseSlot pool u = some i ∧
      setViewsGo (sendAt pool i (Cmd.display u (boxPos b))) boxes = some (pool', log') ∧
      log = (i, Cmd.display u (boxPos b)) :: log') := by
  rw [setViewsGo] at h
  split at h
  next hu => exact Or.inl ⟨hu, h⟩
  next u hu =>
    split at h
    next => cases h
    next i hc =>
      obtain ⟨⟨p1, l1⟩, hgo, heq⟩ := Option.map_eq_some'.mp h
      simp only [Prod.mk.injEq] at heq
      exact Or.inr ⟨u, i, l1, hu, hc, heq.1 ▸ hgo, heq.2.symm⟩

theorem setViewsGo_length :
    ∀ (boxes : List Box) (pool pool' : List (Slot × Bool)) (log : List (Nat × Cmd)),
      setViewsGo pool boxes = some (pool', log) → pool'.length = pool.length := by
  intro boxes
  induction boxes with
  | nil =>
    intro pool pool' log h
    rw [setViewsGo] at h
    cases h
    rfl
  | cons b bs ih =>
    intro pool pool' log h
    rcases setViewsGo_cons pool b bs pool' log h with ⟨_, hgo⟩ | ⟨u, i, log', _, _, hgo, _⟩
    · exact ih pool pool' log hgo
    · rw [ih _ pool' log' hgo, sendAt_length]

theorem setViewsGo_claimed_frozen :
    ∀ (boxes : List Box) (pool pool' : List (Slot × Bool)) (log : List (Nat × Cmd)),
      setViewsGo pool boxes = some (pool', log) →
      ∀ i s, pool.get? i = some (s, true) → pool'.get? i = some (s, true) := by
  intro boxes
  induction boxes with
  | nil =>
    intro pool pool' log h i s hi
    rw [setViewsGo] at h
    cases h
    exact hi
  | cons b bs ih =>
    intro pool pool' log h i s hi
    rcases setViewsGo_cons pool b bs pool' log h with ⟨_, hgo⟩ | ⟨u, j, log', _, hc, hgo, _⟩
    · exact ih pool pool' log hgo i s hi
    · obtain ⟨s', hs'⟩ := chooseSlot_eq_some pool u j hc
      have hji : i ≠ j := by
        intro hij
        subst hij
        rw [hi] at hs'
        cases hs'
      refine ih _ pool' log' hgo i s ?_
      rw [sendAt_get?, if_neg hji]
      exact hi

theorem setViewsGo_targets_unclaimed :
    ∀ (boxes : List Box) (pool pool' : List (Slot × Bool)) (log : List (Nat × Cmd)),
      setViewsGo pool boxes = some (pool', log) →
      ∀ e ∈ log, ∃ s, pool.get? e.1 = some (s, false) := by
  intro boxes
  induction boxes with
  | nil =>
    intro pool pool' log h e he
    rw [setViewsGo] at h
    cases h
    simp at he
  | cons b bs ih =>
    intro pool pool' log h e he
    rcases setViewsGo_cons pool b bs pool' log h with ⟨_, hgo⟩ | ⟨u, j, log', _, hc, hgo, hlog⟩
    · exact ih pool pool' log hgo e he
    · subst hlog
      obtain ⟨s', hs'⟩ := chooseSlot_eq_some pool u j hc
      rcases List.mem_cons.mp he with rfl | hmem
      · exact ⟨s', hs'⟩
      · obtain ⟨s₂, hs₂⟩ := ih _ pool' log' hgo e hmem
        rw [sendAt_get?] at hs₂
        by_cases hej : e.1 = j
        · rw [if_pos hej, hs'] at hs₂
          simp at hs₂
        · rw [if_neg hej] at hs₂
          exact ⟨s₂, hs₂⟩

theorem setViewsGo_targets_nodup :
    ∀ (boxes : List Box) (pool pool' : List (Slot × Bool)) (log : List (Nat × Cmd)),
      setViewsGo pool boxes = some (pool', log) → (log.map Prod.fst).Nodup := by
  intro boxes
  induction boxes with
  | nil =>
    intro pool pool' log h
    rw [setViewsGo] at h
    cases h
    simp
  | cons b bs ih =>
    intro pool pool' log h
    rcases setViewsGo_cons pool b bs pool' log h with ⟨_, hgo⟩ | ⟨u, j, log', _, hc, hgo, hlog⟩
    · exact ih pool pool' log hgo
    · subst hlog
      rw [List.map_cons, List.nodup_cons]
      constructor
      · intro hjmem
        obtain ⟨e, he, hej⟩ := List.mem_map.mp hjmem
        obtain ⟨s₂, hs₂⟩ := setViewsGo_targets_unclaimed bs _ pool' log' hgo e he
        obtain ⟨s', hs'⟩ := chooseSlot_eq_some pool u j hc
        rw [sendAt_get?, hej, if_pos rfl, hs'] at hs₂
        simp at hs₂
      · exact ih _ pool' log' hgo

theorem setViewsGo_display_char :
    ∀ (boxes : List Box) (pool pool' : List (Slot × Bool)) (log : List (Nat × Cmd)),
      setViewsGo pool boxes = some (pool', log) →
      ∀ e ∈ log, ∃ u p s, e.2 = Cmd.display u p ∧ pool'.get? e.1 = some (s, true) ∧
        s.url = some u ∧ s.pos = some p ∧ s.state ≠ VState.idle := by
  intro boxes
  induction boxes with
  | nil =>
    intro pool pool' log h e he
    rw [setViewsGo] at h
    cases h
    simp at he
  | cons b bs ih =>
    intro pool pool' log h e he
    rcases setViewsGo_cons pool b bs pool' log h with ⟨_, hgo⟩ | ⟨u, j, log', _, hc, hgo, hlog⟩
    · exact ih pool pool' log hgo e he
    · subst hlog
      rcases List.mem_cons.mp he with rfl | hmem
      · obtain ⟨s', hs'⟩ := chooseSlot_eq_some pool u j hc
        have hstep : (sendAt pool j (Cmd.display u (boxPos b))).get? j =
            some (s'.send (Cmd.display u (boxPos b)), true) := by
          rw [sendAt_get?, if_pos rfl, hs']
          rfl
        have hfin := setViewsGo_claimed_frozen bs _ pool' log' hgo j _ hstep
        obtain ⟨hu', hp', hs'⟩ := send_display_props s' u (boxPos b)
        exact ⟨u, boxPos b, s'.send (Cmd.display u (boxPos b)), rfl, hfin, hu', hp', hs'⟩
      · exact ih _ pool' log' hgo e hmem

/-! ## C1: the two preference tiers of the candidate search -/

/-- **C1.** For every Region with a url processed by a reconciliation pass, if
some unclaimed Slot's current url equals the Region's url then `chooseSlot`
(the candidate search `setViews` runs for that Region) picks such a Slot; only
when no unclaimed Slot holds the url does it fall back to the second tier, and
any Slot chosen then is unclaimed and not in `displaying` state.  Same-url
preference strictly precedes the non-displaying preference. -/
theorem c1_same_url_preference (pool : List (Slot × Bool)) (url : String) :
    ((∃ i s, pool.get? i = some (s, false) ∧ s.url = some url) →
      ∃ i s, chooseSlot pool url = some i ∧ pool.get? i = some (s, false) ∧
        s.url = some url) ∧
    ((∀ i s, pool.get? i = some (s, false) → s.url ≠ some url) →
      (chooseSlot pool url =
        findUnclaimed (fun s => !(s.state == VState.displaying)) pool) ∧
      (∀ i, chooseSlot pool url = some i →
        ∃ s, pool.get? i = some (s, false) ∧ s.state ≠ VState.displaying)) := by
  constructor
  · rintro ⟨i, s, hget, hurl⟩
    have hp : (fun s => s.url == some url) s = true := by simp [hurl]
    have hsome := findUnclaimed_isSome (fun s => s.url == some url) pool i s hget hp
    obtain ⟨j, hj⟩ := Option.isSome_iff_exists.mp hsome
    obtain ⟨s', hs', hp'⟩ := findUnclaimed_eq_some _ pool j hj
    refine ⟨j, s', ?_, hs', ?_⟩
    · unfold chooseSlot
      rw [hj]
    · simpa using hp'
  · intro hnone
    have hfirst : findUnclaimed (fun s => s.url == some url) pool = none := by
      cases hf : findUnclaimed (fun s => s.url == some url) pool with
      | none => rfl
      | some j =>
        obtain ⟨s, hs, hp⟩ := findUnclaimed_eq_some _ pool j hf
        exact absurd (by simpa using hp) (hnone j s hs)
    constructor
    · unfold chooseSlot
      rw [hfirst]
    · intro i hi
      unfold chooseSlot at hi
      rw [hfirst] at hi
      obtain ⟨s, hs, hp⟩ := findUnclaimed_eq_some _ pool i hi
      refine ⟨s, hs, ?_⟩
      simpa using hp

/-- Witness for C1 at a concrete pool: slot 1 displays url `"u"`, so the
same-url tier picks it even though slot 0 (displaying `"v"`) comes first. -/
theorem c1_witness :
    ∃ i s, chooseSlot w1pool "u" = some i ∧ w1pool.get? i = some (s, false) ∧
      s.url = some "u" :=
  (c1_same_url_preference w1pool "u").1 ⟨1, w1slotU, by decide, by decide⟩

/-! ## C2: when is a candidate guaranteed to exist? -/

theorem undCount_cons (e : Slot × Bool) (rest : List (Slot × Bool)) :
    undCount (e :: rest) =
      (if (!e.2 && !(e.1.state == VState.displaying)) = true then 1 else 0) + undCount rest := by
  unfold undCount
  rw [List.filter_cons]
  split
  · simp [Nat.add_comm]
  · simp

theorem sendAt_undCount (c : Cmd) :
    ∀ (pool : List (Slot × Bool)) (i : Nat),
      undCount pool ≤ undCount (sendAt pool i c) + 1 := by
  intro pool
  induction pool with
  | nil => intro i; simp [sendAt]
  | cons e rest ih =>
    intro i
    cases i with
    | zero =>
      rw [sendAt, undCount_cons, undCount_cons]
      simp only [Bool.not_true, Bool.false_and, if_neg]
      split <;> omega
    | succ n =>
      rw [sendAt, undCount_cons, undCount_cons]
      have := ih n
      omega

theorem chooseSlot_none_undCount (pool : List (Slot × Bool)) (u : String)
    (h : chooseSlot pool u = none) : undCount pool = 0 := by
  unfold chooseSlot at h
  have hsecond : findUnclaimed (fun s => !(s.state == VState.displaying)) pool = none := by
    cases hf : findUnclaimed (fun s => s.url == some u) pool with
    | none => rw [hf] at h; exact h
    | some j => rw [hf] at h; cases h
  unfold undCount
  rw [List.length_eq_zero, List.filter_eq_nil_iff]
  intro e he
  have hfalse := findUnclaimed_eq_none _ pool hsecond e he
  simp [hfalse]

theorem setViewsGo_total :
    ∀ (boxes : List Box) (pool : List (Slot × Bool)),
      (boxes.filterMap Box.truthyUrl).length ≤ undCount pool →
      (setViewsGo pool boxes).isSome := by
  intro boxes
  induction boxes with
  | nil => intro pool _; rw [setViewsGo]; rfl
  | cons b bs ih =>
    intro pool h
    rw [List.filterMap_cons] at h
    rw [setViewsGo]
    split
    next hu =>
      rw [hu] at h
      exact ih pool h
    next u hu =>
      rw [hu, List.length_cons] at h
      split
      next hc =>
        exfalso
        have h0 := chooseSlot_none_undCount pool u hc
        omega
      next i hc =>
        have hsend := sendAt_undCount (Cmd.display u (boxPos b)) pool i
        have h2 : (bs.filterMap Box.truthyUrl).length ≤
            undCount (sendAt pool i (Cmd.display u (boxPos b))) := by omega
        have h3 := ih _ h2
        cases hgo : setViewsGo (sendAt pool i (Cmd.display u (boxPos b))) bs with
        | none => rw [hgo] at h3; cases h3
        | some r => rfl

theorem undCount_init (slots : List Slot) :
    undCount (slots.map (fun s => (s, false))) =
      (slots.filter (fun s => !(s.state == VState.displaying))).length := by
  induction slots with
  | nil => rfl
  | cons s rest ih =>
    rw [List.map_cons, undCount_cons, ih, List.filter_cons]
    split
    next hcond =>
      simp only [Bool.not_false, Bool.true_and] at *
      rw [if_pos hcond, List.length_cons]
      omega
    next hcond =>
      simp only [Bool.not_false, Bool.true_and] at *
      rw [if_neg hcond]
      omega

/-- **C2, counterexample.**  One url-bearing Region and a ten-slot pool — the
Regions do not outnumber the Slots — yet the candidate search fails (every
unclaimed Slot is `displaying` another url), so the pass reaches the
no-candidate branch (`send` on a missing Slot, modelled as `none`). -/
theorem c2_counterexample :
    [c2box].length ≤ c2pool.length ∧ setViews c2pool [c2box] = none := by decide

/-- **C2, amended.**  A candidate Slot can be missing even when the Regions do
not outnumber the Slots; what holds is: whenever the url-bearing Regions do
not outnumber the Slots that are not in `displaying` state, the search of
step 2 finds a candidate for every Region and the no-candidate branch is
unreachable (the pass completes). -/
theorem c2_amended (slots : List Slot) (boxes : List Box)
    (h : (boxes.filterMap Box.truthyUrl).length ≤
      (slots.filter (fun s => !(s.state == VState.displaying))).length) :
    (setViews slots boxes).isSome := by
  have h0 : (boxes.filterMap Box.truthyUrl).length ≤
      undCount (slots.map (fun s => (s, false))) := by
    rw [undCount_init]
    exact h
  have h1 := setViewsGo_total boxes (slots.map (fun s => (s, false))) h0
  unfold setViews
  cases hgo : setViewsGo (slots.map (fun s => (s, false))) boxes with
  | none => rw [hgo] at h1; cases h1
  | some r => obtain ⟨pool, log⟩ := r; rfl

/-- Witness for C2 (amended) at a concrete input: one region, ten idle slots. -/
theorem c2_amended_witness : (setViews demoPool [demoBox]).isSome :=
  c2_amended demoPool [demoBox] (by decide)

/-! ## The claimed set of a pass and the clear phase -/

theorem sendAt_claimedIdx (pool : List (Slot × Bool)) (j : Nat) (c : Cmd) (s' : Slot)
    (hj : pool.get? j = some (s', false)) (i : Nat) :
    claimedIdx (sendAt pool j c) i ↔ (claimedIdx pool i ∨ i = j) := by
  unfold claimedIdx
  rw [sendAt_get?]
  by_cases hij : i = j
  · subst hij
    rw [if_pos rfl, hj]
    simp
  · rw [if_neg hij]
    simp [hij]

theorem setViewsGo_claimedIdx :
    ∀ (boxes : List Box) (pool pool' : List (Slot × Bool)) (log : List (Nat × Cmd)),
      setViewsGo pool boxes = some (pool', log) →
      ∀ i, claimedIdx pool' i ↔ (claimedIdx pool i ∨ i ∈ log.map Prod.fst) := by
  intro boxes
  induction boxes with
  | nil =>
    intro pool pool' log h i
    rw [setViewsGo] at h
    cases h
    simp
  | cons b bs ih =>
    intro pool pool' log h i
    rcases setViewsGo_cons pool b bs pool' log h with ⟨_, hgo⟩ | ⟨u, j, log', _, hc, hgo, hlog⟩
    · exact ih pool pool' log hgo i
    · subst hlog
      obtain ⟨s', hs'⟩ := chooseSlot_eq_some pool u j hc
      rw [ih _ pool' log' hgo i, sendAt_claimedIdx pool j _ s' hs' i]
      simp only [List.map_cons, List.mem_cons]
      tauto

theorem init_unclaimed (slots : List Slot) (i : Nat) :
    ¬claimedIdx (slots.map (fun s => (s, false))) i := by
  rintro ⟨s, hs⟩
  rw [List.get?_map] at hs
  cases hget : slots.get? i with
  | none => rw [hget] at hs; cases hs
  | some s₀ =>
    rw [hget] at hs
    cases hs

theorem clearFrom_length :
    ∀ (pool : List (Slot × Bool)) (k : Nat), (clearFrom k pool).1.length = pool.length := by
  intro pool
  induction pool with
  | nil => intro k; rfl
  | cons e rest ih =>
    intro k
    rw [clearFrom]
    split <;> simp [ih]

theorem clearFrom_fst_get? :
    ∀ (pool : List (Slot × Bool)) (k j : Nat),
      (clearFrom k pool).1.get? j =
        (pool.get? j).map (fun e => if e.2 then e.1 else e.1.send Cmd.clear) := by
  intro pool
  induction pool with
  | nil => intro k j; simp [clearFrom]
  | cons e rest ih =>
    intro k j
    rw [clearFrom]
    cases hb : e.2 with
    | true =>
      rw [if_pos rfl]
      cases j with
      | zero => simp [hb]
      | succ m => simpa using ih (k + 1) m
    | false =>
      rw [if_neg (by simp [hb])]
      cases j with
      | zero => simp [hb]
      | succ m => simpa using ih (k + 1) m

theorem clearFrom_log_mem :
    ∀ (pool : List (Slot × Bool)) (k : Nat) (e : Nat × Cmd),
      e ∈ (clearFrom k pool).2 ↔
        (e.2 = Cmd.clear ∧ ∃ j s, pool.get? j = some (s, false) ∧ e.1 = k + j) := by
  intro pool
  induction pool with
  | nil =>
    intro k e
    simp [clearFrom]
  | cons e₀ rest ih =>
    intro k e
    rw [clearFrom]
    cases hb : e₀.2 with
    | true =>
      rw [if_pos rfl]
      rw [ih (k + 1) e]
      constructor
      · rintro ⟨hc, j, s, hj, hk⟩
        exact ⟨hc, j + 1, s, by simpa using hj, by omega⟩
      · rintro ⟨hc, j, s, hj, hk⟩
        cases j with
        | zero =>
          rw [List.get?_cons_zero] at hj
          cases hj
          simp at hb
        | succ m =>
          rw [List.get?_cons_succ] at hj
          exact ⟨hc, m, s, hj, by omega⟩
    | false =>
      rw [if_neg (by simp [hb])]
      simp only [List.mem_cons]
      rw [ih (k + 1) e]
      constructor
      · rintro (rfl | ⟨hc, j, s, hj, hk⟩)
        · obtain ⟨s₀, b₀⟩ := e₀
          simp only at hb
          subst hb
          exact ⟨rfl, 0, s₀, rfl, by omega⟩
        · exact ⟨hc, j + 1, s, by simpa using hj, by omega⟩
      · rintro ⟨hc, j, s, hj, hk⟩
        cases j with
        | zero =>
          rw [List.get?_cons_zero] at hj
          left
          obtain ⟨i₁, c₁⟩ := e
          simp only at hc hk
          subst hc
          cases hj
          simp only [Nat.add_zero] at hk
          subst hk
          rfl
        | succ m =>
          rw [List.get?_cons_succ] at hj
          exact Or.inr ⟨hc, m, s, hj, by omega⟩

theorem clearFrom_log_clear :
    ∀ (pool : List (Slot × Bool)) (k : Nat) (e : Nat × Cmd),
      e ∈ (clearFrom k pool).2 → e.2 = Cmd.clear := by
  intro pool k e he
  exact ((clearFrom_log_mem pool k e).mp he).1

theorem setViews_eq_some (slots : List Slot) (boxes : List Box)
    (r : List Slot × List (Nat × Cmd)) (h : setViews slots boxes = some r) :
    ∃ pool log, setViewsGo (slots.map (fun s => (s, false))) boxes = some (pool, log) ∧
      r = ((clearFrom 0 pool).1, log ++ (clearFrom 0 pool).2) := by
  unfold setViews at h
  cases hg : setViewsGo (slots.map (fun s => (s, false))) boxes with
  | none => rw [hg] at h; cases h
  | some q =>
    obtain ⟨pool, log⟩ := q
    rw [hg] at h
    cases h
    exact ⟨pool, log, rfl, rfl⟩

/-! ## Membership in the display and clear target lists -/

theorem mem_displayTargets (log : List (Nat × Cmd)) (i : Nat) :
    i ∈ displayTargets log ↔ ∃ u p, (i, Cmd.display u p) ∈ log := by
  unfold displayTargets
  rw [List.mem_filterMap]
  constructor
  · rintro ⟨⟨j, c⟩, hmem, hf⟩
    cases c with
    | display u p =>
      simp only at hf
      cases hf
      exact ⟨u, p, hmem⟩
    | clear => simp at hf
    | mute => simp at hf
    | unmute => simp at hf
  · rintro ⟨u, p, hmem⟩
    exact ⟨(i, Cmd.display u p), hmem, rfl⟩

theorem mem_clearTargets (log : List (Nat × Cmd)) (i : Nat) :
    i ∈ clearTargets log ↔ (i, Cmd.clear) ∈ log := by
  unfold clearTargets
  rw [List.mem_filterMap]
  constructor
  · rintro ⟨⟨j, c⟩, hmem, hf⟩
    cases c with
    | display u p => simp at hf
    | clear =>
      simp only at hf
      cases hf
      exact hmem
    | mute => simp at hf
    | unmute => simp at hf
  · intro hmem
    exact ⟨(i, Cmd.clear), hmem, rfl⟩

theorem displayTargets_append (l₁ l₂ : List (Nat × Cmd)) :
    displayTargets (l₁ ++ l₂) = displayTargets l₁ ++ displayTargets l₂ :=
  List.filterMap_append l₁ l₂ _

theorem clearTargets_append (l₁ l₂ : List (Nat × Cmd)) :
    clearTargets (l₁ ++ l₂) = clearTargets l₁ ++ clearTargets l₂ :=
  List.filterMap_append l₁ l₂ _

theorem displayTargets_of_all_clear (log : List (Nat × Cmd))
    (h : ∀ e ∈ log, e.2 = Cmd.clear) : displayTargets log = [] := by
  unfold displayTargets
  rw [List.filterMap_eq_nil]
  intro e he
  rw [h e he]

theorem clearTargets_of_all_display (log : List (Nat × Cmd))
    (h : ∀ e ∈ log, ∃ u p, e.2 = Cmd.display u p) : clearTargets log = [] := by
  unfold clearTargets
  rw [List.filterMap_eq_nil]
  intro e he
  obtain ⟨u, p, hup⟩ := h e he
  rw [hup]

theorem displayTargets_eq_map_fst (log : List (Nat × Cmd))
    (h : ∀ e ∈ log, ∃ u p, e.2 = Cmd.display u p) :
    displayTargets log = log.map Prod.fst := by
  induction log with
  | nil => rfl
  | cons e rest ih =>
    obtain ⟨u, p, hup⟩ := h e (List.mem_cons_self e rest)
    obtain ⟨i, c⟩ := e
    simp only at hup
    subst hup
    unfold displayTargets
    rw [List.filterMap_cons]
    simp only [List.map_cons]
    rw [← displayTargets]
    rw [ih (fun e he => h e (List.mem_cons_of_mem _ he))]

/-! ## C5 and C6: clearing of unclaimed slots, distinctness of the assignment -/

/-- **C5.**  In every completed reconciliation pass, a slot index within the
pool is sent `CLEAR` exactly when it was not claimed by (sent `DISPLAY` for)
some Region of the new layout: every unclaimed Slot is cleared before the pass
ends, and no claimed Slot is cleared in that pass. -/
theorem c5_unclaimed_cleared (slots : List Slot) (boxes : List Box)
    (r : List Slot × List (Nat × Cmd)) (h : setViews slots boxes = some r)
    (i : Nat) (hi : i < slots.length) :
    (i ∈ clearTargets r.2 ↔ i ∉ displayTargets r.2) := by
  obtain ⟨pool, log, hgo, hr⟩ := setViews_eq_some slots boxes r h
  subst hr
  simp only
  have hdisp : ∀ e ∈ log, ∃ u p, e.2 = Cmd.display u p := by
    intro e he
    obtain ⟨u, p, s, hup, _⟩ := setViewsGo_display_char boxes _ pool log hgo e he
    exact ⟨u, p, hup⟩
  rw [clearTargets_append, clearTargets_of_all_display log hdisp, List.nil_append,
    displayTargets_append, displayTargets_of_all_clear _ (clearFrom_log_clear pool 0),
    List.append_nil, displayTargets_eq_map_fst log hdisp]
  have hlen : pool.length = slots.length := by
    rw [setViewsGo_length boxes _ pool log hgo, List.length_map]
  have hi' : i < pool.length := by omega
  have hentry : ∃ e, pool.get? i = some e := by
    cases hq : pool.get? i with
    | none => rw [List.get?_eq_none] at hq; omega
    | some e => exact ⟨e, rfl⟩
  obtain ⟨⟨s₀, b₀⟩, hs₀⟩ := hentry
  have hclaim := setViewsGo_claimedIdx boxes _ pool log hgo i
  have hinit := init_unclaimed slots i
  constructor
  · intro hmem hdispmem
    rw [mem_clearTargets] at hmem
    obtain ⟨_, j, s, hj, hij⟩ := (clearFrom_log_mem pool 0 _).mp hmem
    simp only [Nat.zero_add] at hij
    subst hij
    have hcl : claimedIdx pool i := hclaim.mpr (Or.inr hdispmem)
    obtain ⟨s', hs'⟩ := hcl
    rw [hj] at hs'
    simp at hs'
  · intro hnotdisp
    rw [mem_clearTargets]
    rw [clearFrom_log_mem pool 0 (i, Cmd.clear)]
    refine ⟨rfl, i, ?_⟩
    cases b₀ with
    | true =>
      exfalso
      have hcl : claimedIdx pool i := ⟨s₀, hs₀⟩
      rcases hclaim.mp hcl with hfalse | hmem
      · exact hinit hfalse
      · exact hnotdisp hmem
    | false => exact ⟨s₀, hs₀, by omega⟩

/-- Witness for C5: in the demo pass, slot 3 is unclaimed, so it is cleared
exactly because it received no `DISPLAY`. -/
theorem c5_witness : (3 ∈ clearTargets demoRun.2 ↔ 3 ∉ displayTargets demoRun.2) :=
  c5_unclaimed_cleared demoPool [demoBox] demoRun (by decide) 3 (by decide)

/-- **C6.**  A completed reconciliation pass assigns mutually distinct Slots to
the Regions and sends at most one `DISPLAY` to each Slot: the list of
`DISPLAY` targets has no duplicates (a Slot, once claimed, leaves the
unclaimed set and is never selected again in the same pass). -/
theorem c6_distinct_assignment (slots : List Slot) (boxes : List Box)
    (r : List Slot × List (Nat × Cmd)) (h : setViews slots boxes = some r) :
    (displayTargets r.2).Nodup := by
  obtain ⟨pool, log, hgo, hr⟩ := setViews_eq_some slots boxes r h
  subst hr
  simp only
  have hdisp : ∀ e ∈ log, ∃ u p, e.2 = Cmd.display u p := by
    intro e he
    obtain ⟨u, p, s, hup, _⟩ := setViewsGo_display_char boxes _ pool log hgo e he
    exact ⟨u, p, hup⟩
  rw [displayTargets_append, displayTargets_of_all_clear _ (clearFrom_log_clear pool 0),
    List.append_nil, displayTargets_eq_map_fst log hdisp]
  exact setViewsGo_targets_nodup boxes _ pool log hgo

/-- Witness for C6 at the demo pass. -/
theorem c6_witness : (displayTargets demoRun.2).Nodup :=
  c6_distinct_assignment demoPool [demoBox] demoRun (by decide)

/-! ## C7: the interleaved pass equals the read-then-act pass -/

theorem agrees_find (p : Slot → Bool) :
    ∀ (pool : List (Slot × Bool)) (snap : List Slot) (claimed : List Bool),
      Agrees pool snap claimed →
      findUnclaimed p pool = findUnclaimedSnap p snap claimed := by
  intro pool
  induction pool with
  | nil =>
    intro snap claimed h
    cases snap with
    | nil =>
      cases claimed with
      | nil => rfl
      | cons c cs => simp [Agrees] at h
    | cons s ss => simp [Agrees] at h
  | cons e rest ih =>
    intro snap claimed h
    cases snap with
    | nil => simp [Agrees] at h
    | cons s ss =>
      cases claimed with
      | nil => simp [Agrees] at h
      | cons c cs =>
        obtain ⟨hec, hes, hrest⟩ := h
        rw [findUnclaimed, findUnclaimedSnap, ih ss cs hrest]
        cases c with
        | true => rw [hec]; simp
        | false =>
          rw [hec, hes hec]

theorem agrees_choose (pool : List (Slot × Bool)) (snap : List Slot)
    (claimed : List Bool) (u : String) (h : Agrees pool snap claimed) :
    chooseSlot pool u = chooseSlotSnap snap claimed u := by
  unfold chooseSlot chooseSlotSnap
  rw [agrees_find _ pool snap claimed h, agrees_find _ pool snap claimed h]

theorem agrees_sendAt (c : Cmd) :
    ∀ (pool : List (Slot × Bool)) (snap : List Slot) (claimed : List Bool) (i : Nat),
      Agrees pool snap claimed →
      Agrees (sendAt pool i c) snap (setClaimed claimed i) := by
  intro pool
  induction pool with
  | nil =>
    intro snap claimed i h
    cases snap with
    | nil =>
      cases claimed with
      | nil => simpa [sendAt, setClaimed] using h
      | cons c' cs => simp [Agrees] at h
    | cons s ss => simp [Agrees] at h
  | cons e rest ih =>
    intro snap claimed i h
    cases snap with
    | nil => simp [Agrees] at h
    | cons s ss =>
      cases claimed with
      | nil => simp [Agrees] at h
      | cons c' cs =>
        obtain ⟨hec, hes, hrest⟩ := h
        cases i with
        | zero =>
          rw [sendAt, setClaimed]
          refine ⟨rfl, ?_, hrest⟩
          intro hfalse
          simp at hfalse
        | succ n =>
          rw [sendAt, setClaimed]
          exact ⟨hec, hes, ih ss cs n hrest⟩

theorem agrees_init (slots : List Slot) :
    Agrees (slots.map (fun s => (s, false))) slots (slots.map (fun _ => false)) := by
  induction slots with
  | nil => trivial
  | cons s rest ih => exact ⟨rfl, fun _ => rfl, ih⟩

theorem agrees_go :
    ∀ (boxes : List Box) (pool : List (Slot × Bool)) (snap : List Slot)
      (claimed : List Bool) (pool' : List (Slot × Bool)) (log : List (Nat × Cmd)),
      Agrees pool snap claimed →
      setViewsGo pool boxes = some (pool', log) →
      snapGo snap claimed boxes = some (displayTargets log) := by
  intro boxes
  induction boxes with
  | nil =>
    intro pool snap claimed pool' log ha h
    rw [setViewsGo] at h
    cases h
    rfl
  | cons b bs ih =>
    intro pool snap claimed pool' log ha h
    rcases setViewsGo_cons pool b bs pool' log h with ⟨hu, hgo⟩ | ⟨u, j, log', hu, hc, hgo, hlog⟩
    · rw [snapGo, hu]
      exact ih pool snap claimed pool' log ha hgo
    · subst hlog
      have hcs : chooseSlotSnap snap claimed u = some j := by
        rw [← agrees_choose pool snap claimed u ha]
        exact hc
      simp only [snapGo, hu, hcs]
      have ha' := agrees_sendAt (Cmd.display u (boxPos b)) pool snap claimed j ha
      rw [ih _ snap (setClaimed claimed j) pool' log' ha' hgo]
      rfl

/-- **C7.**  A completed reconciliation pass behaves as read-then-act: the
Region-to-Slot assignment computed by the interleaved loop of `setViews`
(which reads live slot state between sends) equals the assignment of the
two-phase variant `snapGo` that reads the whole pool's snapshot once before
issuing any command — slots already claimed and commanded are excluded from
every later match, so their mutated state is never consulted. -/
theorem c7_read_then_act (slots : List Slot) (boxes : List Box)
    (r : List Slot × List (Nat × Cmd)) (h : setViews slots boxes = some r) :
    snapGo slots (slots.map (fun _ => false)) boxes = some (displayTargets r.2) := by
  obtain ⟨pool, log, hgo, hr⟩ := setViews_eq_some slots boxes r h
  subst hr
  simp only
  rw [displayTargets_append, displayTargets_of_all_clear _ (clearFrom_log_clear pool 0),
    List.append_nil]
  exact agrees_go boxes _ slots _ pool log (agrees_init slots) hgo

/-- Witness for C7 at the demo pass. -/
theorem c7_witness :
    snapGo demoPool (demoPool.map (fun _ => false)) [demoBox] =
      some (displayTargets demoRun.2) :=
  c7_read_then_act demoPool [demoBox] demoRun (by decide)

/-! ## C3 and C4: listening-focus routing -/

theorem listenFrom_log_mem (viewIdx : Nat) :
    ∀ (slots : List Slot) (k : Nat) (e : Nat × Cmd),
      e ∈ (listenFrom viewIdx k slots).2 ↔
        ∃ j s, slots.get? j = some s ∧ e.1 = k + j ∧ s.state = VState.displaying ∧
          e.2 = (if (Slot.spaces s).contains viewIdx then Cmd.unmute else Cmd.mute) := by
  intro slots
  induction slots with
  | nil =>
    intro k e
    simp [listenFrom]
  | cons s rest ih =>
    intro k e
    rw [listenFrom]
    by_cases hd : (s.state == VState.displaying) = true
    · rw [if_pos hd]
      simp only [List.mem_cons]
      rw [ih (k + 1) e]
      rw [beq_iff_eq] at hd
      constructor
      · rintro (rfl | ⟨j, s', hj, hk, hds', hc⟩)
        · exact ⟨0, s, rfl, by omega, hd, rfl⟩
        · exact ⟨j + 1, s', by simpa using hj, by omega, hds', hc⟩
      · rintro ⟨j, s', hj, hk, hds', hc⟩
        cases j with
        | zero =>
          rw [List.get?_cons_zero] at hj
          cases hj
          left
          obtain ⟨i₁, c₁⟩ := e
          simp only at hk hc
          subst hc
          simp only [Nat.add_zero] at hk
          subst hk
          rfl
        | succ m =>
          rw [List.get?_cons_succ] at hj
          exact Or.inr ⟨m, s', hj, by omega, hds', hc⟩
    · rw [if_neg hd]
      rw [ih (k + 1) e]
      constructor
      · rintro ⟨j, s', hj, hk, hds', hc⟩
        exact ⟨j + 1, s', by simpa using hj, by omega, hds', hc⟩
      · rintro ⟨j, s', hj, hk, hds', hc⟩
        cases j with
        | zero =>
          rw [List.get?_cons_zero] at hj
          cases hj
          exact absurd (beq_iff_eq.mpr hds') hd
        | succ m =>
          rw [List.get?_cons_succ] at hj
          exact ⟨m, s', hj, by omega, hds', hc⟩

/-- **C3.**  After `setListeningView c`: a slot receives `UNMUTE` exactly when
it is in `displaying` state and its spanned cell-index set contains `c`, it
receives `MUTE` exactly when it is displaying and its span does not contain
`c`, and a slot not in `displaying` state receives no command at all. -/
theorem c3_focus_routing (slots : List Slot) (c : Nat) (i : Nat) (s : Slot)
    (h : slots.get? i = some s) :
    (((i, Cmd.unmute) ∈ (setListeningView slots c).2) ↔
      (s.state = VState.displaying ∧ c ∈ Slot.spaces s)) ∧
    (((i, Cmd.mute) ∈ (setListeningView slots c).2) ↔
      (s.state = VState.displaying ∧ c ∉ Slot.spaces s)) ∧
    (s.state ≠ VState.displaying → ∀ cmd, (i, cmd) ∉ (setListeningView slots c).2) := by
  unfold setListeningView
  have hmem := fun (e : Nat × Cmd) => listenFrom_log_mem c slots 0 e
  have hinj : ∀ (e : Nat × Cmd), e.1 = i → e ∈ (listenFrom c 0 slots).2 →
      ∃ hds : s.state = VState.displaying,
        e.2 = (if (Slot.spaces s).contains c then Cmd.unmute else Cmd.mute) := by
    intro e hei he
    obtain ⟨j, s', hj, hk, hds', hc'⟩ := (hmem e).mp he
    simp only [Nat.zero_add] at hk
    rw [hei] at hk
    subst hk
    rw [h] at hj
    cases hj
    exact ⟨hds', hc'⟩
  refine ⟨⟨?_, ?_⟩, ⟨?_, ?_⟩, ?_⟩
  · intro hu
    obtain ⟨hds, hc'⟩ := hinj (i, Cmd.unmute) rfl hu
    refine ⟨hds, ?_⟩
    by_cases hsp : (Slot.spaces s).contains c = true
    · exact List.elem_iff.mp hsp
    · rw [if_neg hsp] at hc'
      cases hc'
  · rintro ⟨hds, hsp⟩
    refine (hmem (i, Cmd.unmute)).mpr ⟨i, s, h, by omega, hds, ?_⟩
    rw [if_pos (List.elem_iff.mpr hsp)]
  · intro hm
    obtain ⟨hds, hc'⟩ := hinj (i, Cmd.mute) rfl hm
    refine ⟨hds, ?_⟩
    intro hsp
    rw [if_pos (List.elem_iff.mpr hsp)] at hc'
    cases hc'
  · rintro ⟨hds, hsp⟩
    refine (hmem (i, Cmd.mute)).mpr ⟨i, s, h, by omega, hds, ?_⟩
    rw [if_neg (fun hcon => hsp (List.elem_iff.mp hcon))]
  · intro hnd cmd hin
    obtain ⟨hds, _⟩ := hinj (i, cmd) rfl hin
    exact hnd hds

/-- Witness for C3 at a concrete pool: the displaying slot `w1slotV` spans
cell 0, so focusing cell 0 unmutes it. -/
theorem c3_witness :
    ((0, Cmd.unmute) ∈ (setListeningView [w1slotV] 0).2) ↔
      (w1slotV.state = VState.displaying ∧ 0 ∈ Slot.spaces w1slotV) :=
  (c3_focus_routing [w1slotV] 0 0 w1slotV (by decide)).1

/-- **C4, counterexample.**  Focus index 100 is outside the 10×10 grid, yet the
request is not rejected: `setListeningView` sends `MUTE` to the displaying
slot and its mute state changes from unmuted to muted — the claim that an
out-of-bounds focus changes no slot's mute state is false. -/
theorem c4_counterexample :
    GRID_COUNT * GRID_COUNT ≤ 100 ∧
    (setListeningView c4pool 100).2 = [(0, Cmd.mute)] ∧
    c4pool.map Slot.muted = [false] ∧
    (setListeningView c4pool 100).1.map Slot.muted = [true] := by decide

/-- **C4, amended.**  `setListeningView` performs no bounds check: a focus
index outside the grid is handled like any other index whose cell no slot
spans.  Provided every slot's span lies inside the grid, an out-of-bounds
focus sends `MUTE` to every displaying slot (and `UNMUTE`, or anything else,
to none); the previous focus is not retained. -/
theorem c4_amended (slots : List Slot) (c : Nat)
    (hspan : ∀ s ∈ slots, ∀ j ∈ Slot.spaces s, j < GRID_COUNT * GRID_COUNT)
    (hc : GRID_COUNT * GRID_COUNT ≤ c) :
    (∀ e ∈ (setListeningView slots c).2, e.2 = Cmd.mute) ∧
    (∀ i s, slots.get? i = some s → s.state = VState.displaying →
      (i, Cmd.mute) ∈ (setListeningView slots c).2) := by
  unfold setListeningView
  constructor
  · intro e he
    obtain ⟨j, s, hj, hk, hds, hcmd⟩ := (listenFrom_log_mem c slots 0 e).mp he
    have hsmem : s ∈ slots := List.get?_mem hj
    have hnot : (Slot.spaces s).contains c = false := by
      cases hcon : (Slot.spaces s).contains c with
      | false => rfl
      | true =>
        have := hspan s hsmem c (List.elem_iff.mp hcon)
        omega
    rw [hnot] at hcmd
    simpa using hcmd
  · intro i s hget hds
    refine (listenFrom_log_mem c slots 0 (i, Cmd.mute)).mpr ⟨i, s, hget, by omega, hds, ?_⟩
    have hnot : (Slot.spaces s).contains c = false := by
      cases hcon : (Slot.spaces s).contains c with
      | false => rfl
      | true =>
        have := hspan s (List.get?_mem hget) c (List.elem_iff.mp hcon)
        omega
    rw [hnot]
    simp

/-- Witness for C4 (amended) at the concrete one-slot pool and focus 100: the
displaying slot is sent `MUTE`. -/
theorem c4_amended_witness :
    (0, Cmd.mute) ∈ (setListeningView c4pool 100).2 :=
  (c4_amended c4pool 100 (by decide) (by decide)).2 0
    ⟨VState.displaying, some "u", some ⟨0, 0, 192, 108, [0]⟩, false⟩ (by decide) (by decide)

/-! ## C9: the content-discovery script signals at most once per load -/

/-- **C9.**  Per load initiated by a `display` command, one run of the layer
preload script's `main().catch(...)` emits `view-loaded` at most once,
`view-info` at most once and `view-error` at most once, and never emits both a
ready signal and a failure signal: the success path sends `view-loaded`
exactly once after content discovery completes, and `view-error` is sent only
by the catch handler, i.e. only when `main`'s promise rejects. -/
theorem c9_signals_at_most_once (env : MainEnv) :
    (mainRun env).count IpcMsg.viewLoaded ≤ 1 ∧
    (mainRun env).count IpcMsg.viewError ≤ 1 ∧
    ((mainRun env).countP (fun m =>
      match m with
      | IpcMsg.viewInfo _ => true
      | _ => false)) ≤ 1 ∧
    ¬(IpcMsg.viewLoaded ∈ mainRun env ∧ IpcMsg.viewError ∈ mainRun env) := by
  obtain ⟨fails, kind, fv⟩ := env
  cases fails <;> cases kind <;> cases fv <;>
    simp [mainRun, List.count_cons, List.countP_cons, List.count_nil, List.countP_nil]

/-! ## C10: regions with a falsy url are skipped -/

/-- **C10.**  A Region whose url is falsy (absent or the empty string) is
skipped by the reconciliation pass entirely: prepending it to the box list
changes nothing — it claims no slot, no `DISPLAY` is issued for it, and the
slots it would have consumed stay unclaimed and are cleared at the end of the
pass exactly as without it. -/
theorem c10_falsy_url_skipped (slots : List Slot) (boxes : List Box) (b : Box)
    (h : b.truthyUrl = none) :
    setViews slots (b :: boxes) = setViews slots boxes := by
  unfold setViews
  have hgo : setViewsGo (slots.map (fun s => (s, false))) (b :: boxes) =
      setViewsGo (slots.map (fun s => (s, false))) boxes := by
    rw [setViewsGo, h]
  rw [hgo]

/-- Witness for C10: a box with the empty-string url (falsy in JavaScript)
prepended to the demo layout leaves the pass unchanged. -/
theorem c10_witness :
    setViews demoPool (c10box :: [demoBox]) = setViews demoPool [demoBox] :=
  c10_falsy_url_skipped demoPool [demoBox] c10box (by decide)

/-! ## C8: idempotence of the reconciliation pass -/

theorem mem_logUrls (log : List (Nat × Cmd)) (e : Nat × Cmd) (u : String) (p : Pos)
    (he : e ∈ log) (hup : e.2 = Cmd.display u p) : u ∈ logUrls log := by
  unfold logUrls
  rw [List.mem_filterMap]
  exact ⟨e, he, by rw [hup]; rfl⟩

theorem log_url_inj :
    ∀ (log : List (Nat × Cmd)), (logUrls log).Nodup →
      ∀ e ∈ log, ∀ e' ∈ log, ∀ u p p', e.2 = Cmd.display u p → e'.2 = Cmd.display u p' →
        e = e' := by
  intro log
  induction log with
  | nil => intro _ e he; simp at he
  | cons a rest ih =>
    intro hnd e he e' he' u p p' hup hup'
    have hnd' : (logUrls rest).Nodup ∧ ∀ v ∈ logUrls rest, (cmdUrl a.2 = some v → False) := by
      unfold logUrls at hnd ⊢
      rw [List.filterMap_cons] at hnd
      cases hca : cmdUrl a.2 with
      | none =>
        rw [hca] at hnd
        exact ⟨hnd, fun v _ hee => by cases hee⟩
      | some w =>
        rw [hca] at hnd
        rw [List.nodup_cons] at hnd
        refine ⟨hnd.2, fun v hv hee => ?_⟩
        cases hee
        exact hnd.1 hv
    rcases List.mem_cons.mp he with rfl | hmem
    · rcases List.mem_cons.mp he' with rfl | hmem'
      · rfl
      · exfalso
        have hu' : u ∈ logUrls rest := mem_logUrls rest e' u p' hmem' hup'
        exact hnd'.2 u hu' (by rw [hup]; rfl)
    · rcases List.mem_cons.mp he' with rfl | hmem'
      · exfalso
        have hu' : u ∈ logUrls rest := mem_logUrls rest e u p hmem hup
        exact hnd'.2 u hu' (by rw [hup']; rfl)
      · exact ih hnd'.1 e hmem e' hmem' u p p' hup hup'

theorem go_logUrls :
    ∀ (boxes : List Box) (pool pool' : List (Slot × Bool)) (log : List (Nat × Cmd)),
      setViewsGo pool boxes = some (pool', log) →
      logUrls log = boxes.filterMap Box.truthyUrl := by
  intro boxes
  induction boxes with
  | nil =>
    intro pool pool' log h
    rw [setViewsGo] at h
    cases h
    rfl
  | cons b bs ih =>
    intro pool pool' log h
    rcases setViewsGo_cons pool b bs pool' log h with ⟨hu, hgo⟩ | ⟨u, j, log', hu, hc, hgo, hlog⟩
    · rw [List.filterMap_cons, hu]
      exact ih pool pool' log hgo
    · subst hlog
      rw [List.filterMap_cons, hu]
      unfold logUrls
      rw [List.filterMap_cons]
      have : cmdUrl (j, Cmd.display u (boxPos b)).2 = some u := rfl
      rw [this]
      rw [← logUrls, ih _ pool' log' hgo]

theorem findUnclaimed_unique (p : Slot → Bool) :
    ∀ (pool : List (Slot × Bool)) (i : Nat) (s : Slot),
      pool.get? i = some (s, false) → p s = true →
      (∀ j s' b', pool.get? j = some (s', b') → p s' = true → j = i) →
      findUnclaimed p pool = some i := by
  intro pool
  induction pool with
  | nil => intro i s h; simp at h
  | cons e rest ih =>
    intro i s hget hp huniq
    cases i with
    | zero =>
      rw [List.get?_cons_zero] at hget
      cases hget
      rw [findUnclaimed]
      simp [hp]
    | succ n =>
      rw [List.get?_cons_succ] at hget
      rw [findUnclaimed]
      have hhead : (!e.2 && p e.1) = false := by
        cases hb : e.2 with
        | true => simp [hb]
        | false =>
          cases hpe : p e.1 with
          | false => simp [hpe]
          | true =>
            exfalso
            obtain ⟨s₀, b₀⟩ := e
            simp only at hb hpe
            subst hb
            have := huniq 0 s₀ false rfl hpe
            cases this
      rw [hhead]
      simp only [Bool.false_eq_true, if_false]
      have hrec : findUnclaimed p rest = some n := by
        apply ih n s hget hp
        intro j s' b' hj hp'
        have := huniq (j + 1) s' b' (by simpa using hj) hp'
        omega
      rw [hrec]
      rfl

theorem sendAt_map_fst (pool : List (Slot × Bool)) (i : Nat) (c : Cmd) (s : Slot)
    (h : pool.get? i = some (s, false)) (hno : s.send c = s) :
    (sendAt pool i c).map Prod.fst = pool.map Prod.fst := by
  apply List.ext_get?
  intro n
  rw [List.get?_map, List.get?_map, sendAt_get?]
  by_cases hn : n = i
  · subst hn
    rw [if_pos rfl, h]
    simp [hno]
  · rw [if_neg hn]

theorem pairList_ext :
    ∀ (a b : List (Slot × Bool)), a.map Prod.fst = b.map Prod.fst →
      a.map Prod.snd = b.map Prod.snd → a = b := by
  intro a
  induction a with
  | nil =>
    intro b h1 _
    cases b with
    | nil => rfl
    | cons e bs => simp at h1
  | cons e as ih =>
    intro b h1 h2
    cases b with
    | nil => simp at h1
    | cons e' bs =>
      simp only [List.map_cons, List.cons.injEq] at h1 h2
      rw [ih bs h1.2 h2.2, Prod.ext h1.1 h2.1]

theorem reclaim_map_snd (pool : List (Slot × Bool)) :
    (reclaim pool).map Prod.snd = pool.map Prod.snd := by
  unfold reclaim
  rw [List.map_map]
  rfl

theorem reclaim_map_fst (pool : List (Slot × Bool)) :
    (reclaim pool).map Prod.fst = (clearFrom 0 pool).1 := by
  apply List.ext_get?
  intro n
  rw [List.get?_map, clearFrom_fst_get?]
  unfold reclaim
  rw [List.get?_map]
  cases pool.get? n with
  | none => rfl
  | some e => rfl

theorem clearFrom_reclaim :
    ∀ (pool : List (Slot × Bool)) (k : Nat), clearFrom k (reclaim pool) = clearFrom k pool := by
  intro pool
  induction pool with
  | nil => intro k; rfl
  | cons e rest ih =>
    intro k
    unfold reclaim
    rw [List.map_cons]
    rw [clearFrom, clearFrom]
    cases hb : e.2 with
    | true =>
      simp only [hb, if_true, if_pos]
      rw [← reclaim, ih (k + 1)]
    | false =>
      simp only [hb, Bool.false_eq_true, if_false, if_neg]
      rw [← reclaim, ih (k + 1), send_clear_idem]

theorem claimedIdx_flags (a b : List (Slot × Bool)) (hlen : a.length = b.length)
    (h : ∀ i, claimedIdx a i ↔ claimedIdx b i) : a.map Prod.snd = b.map Prod.snd := by
  apply List.ext_get?
  intro n
  rw [List.get?_map, List.get?_map]
  by_cases hn : n < a.length
  · obtain ⟨ea, hea⟩ : ∃ e, a.get? n = some e := by
      cases hq : a.get? n with
      | none => rw [List.get?_eq_none] at hq; omega
      | some e => exact ⟨e, rfl⟩
    obtain ⟨eb, heb⟩ : ∃ e, b.get? n = some e := by
      cases hq : b.get? n with
      | none => rw [List.get?_eq_none] at hq; omega
      | some e => exact ⟨e, rfl⟩
    rw [hea, heb]
    obtain ⟨sa, ba⟩ := ea
    obtain ⟨sb, bb⟩ := eb
    have hiff := h n
    unfold claimedIdx at hiff
    rw [hea, heb] at hiff
    have hbb : ba = bb := by
      cases ba with
      | true =>
        cases bb with
        | true => rfl
        | false =>
          exfalso
          obtain ⟨s', hs'⟩ := hiff.mp ⟨sa, rfl⟩
          simp at hs'
      | false =>
        cases bb with
        | true =>
          exfalso
          obtain ⟨s', hs'⟩ := hiff.mpr ⟨sb, rfl⟩
          simp at hs'
        | false => rfl
    rw [hbb]
    rfl
  · rw [List.get?_eq_none.mpr (by omega), List.get?_eq_none.mpr (by omega)]

theorem replay_go :
    ∀ (boxes : List Box) (P Q pool1 : List (Slot × Bool)) (log : List (Nat × Cmd)),
      setViewsGo P boxes = some (pool1, log) → PassInv Q log →
      ∃ Q', setViewsGo Q boxes = some (Q', log) ∧ Q'.map Prod.fst = Q.map Prod.fst := by
  intro boxes
  induction boxes with
  | nil =>
    intro P Q pool1 log h _
    rw [setViewsGo] at h
    cases h
    exact ⟨Q, rfl, rfl⟩
  | cons b bs ih =>
    intro P Q pool1 log h hinv
    rcases setViewsGo_cons P b bs pool1 log h with ⟨hu, hgo⟩ | ⟨u, i, log', hu, hc, hgo, hlog⟩
    · obtain ⟨Q', hgo2, hfst⟩ := ih P Q pool1 log hgo hinv
      refine ⟨Q', ?_, hfst⟩
      rw [setViewsGo, hu]
      exact hgo2
    · subst hlog
      obtain ⟨ha, hb, hnd⟩ := hinv
      have hhead := ha (i, Cmd.display u (boxPos b)) (List.mem_cons_self _ _)
      obtain ⟨u₀, p₀, s, hcmd, hQ, hsu, hsp, hss⟩ := hhead
      simp only at hcmd
      injection hcmd with hu₀ hp₀
      subst hu₀
      subst hp₀
      have hnoop : s.send (Cmd.display u (boxPos b)) = s :=
        send_display_noop s u (boxPos b) hsu hsp hss
      have hcQ : chooseSlot Q u = some i := by
        unfold chooseSlot
        have hfind : findUnclaimed (fun s => s.url == some u) Q = some i := by
          apply findUnclaimed_unique _ Q i s hQ (by simp [hsu])
          intro j s' b' hj hp'
          have hj' : s'.url = some u := by simpa using hp'
          exact hb (i, Cmd.display u (boxPos b)) (List.mem_cons_self _ _) u (boxPos b)
            j s' b' rfl hj hj'
        rw [hfind]
      have htailne : ∀ e ∈ log', e.1 ≠ i := by
        intro e he hei
        rw [List.map_cons, List.nodup_cons] at hnd
        exact hnd.1 (List.mem_map.mpr ⟨e, he, hei⟩)
      have hQ2i : (sendAt Q i (Cmd.display u (boxPos b))).get? i = some (s, true) := by
        rw [sendAt_get?, if_pos rfl, hQ]
        simp [hnoop]
      have hQ2other : ∀ j, j ≠ i →
          (sendAt Q i (Cmd.display u (boxPos b))).get? j = Q.get? j := by
        intro j hj
        rw [sendAt_get?, if_neg hj]
      have hinv2 : PassInv (sendAt Q i (Cmd.display u (boxPos b))) log' := by
        refine ⟨?_, ?_, ?_⟩
        · intro e he
          obtain ⟨u', p', s', hcmd', hQ', hsu', hsp', hss'⟩ :=
            ha e (List.mem_cons_of_mem _ he)
          exact ⟨u', p', s', hcmd', by rw [hQ2other e.1 (htailne e he)]; exact hQ',
            hsu', hsp', hss'⟩
        · intro e he u' p' j s' b' hcmd' hQ' hsu'
          by_cases hj : j = i
          · rw [hj] at hQ'
            rw [hQ2i] at hQ'
            injection hQ' with hpair
            injection hpair with hs' hb'
            subst hs'
            have huu : u' = u := by
              rw [hsu] at hsu'
              exact (Option.some.inj hsu').symm
            obtain ⟨ue, pe, se, hcmde, hQe, hsue, _, _⟩ := ha e (List.mem_cons_of_mem _ he)
            rw [hcmd'] at hcmde
            injection hcmde with hue hpe
            exfalso
            apply htailne e he
            have hsue' : se.url = some u := by rw [hsue, ← hue, huu]
            exact hb (i, Cmd.display u (boxPos b)) (List.mem_cons_self _ _) u (boxPos b)
              e.1 se false rfl hQe hsue'
          · rw [hQ2other j hj] at hQ'
            exact hb e (List.mem_cons_of_mem _ he) u' p' j s' b' hcmd' hQ' hsu'
        · rw [List.map_cons, List.nodup_cons] at hnd
          exact hnd.2
      obtain ⟨Q'', hgo2', hfst'⟩ := ih _ _ pool1 log' hgo hinv2
      refine ⟨Q'', ?_, ?_⟩
      · simp only [setViewsGo, hu, hcQ]
        rw [hgo2']
        rfl
      · rw [hfst', sendAt_map_fst Q i _ s hQ hnoop]

theorem map_pair_fst (l : List Slot) :
    (l.map (fun s => (s, false))).map Prod.fst = l := by
  rw [List.map_map]
  exact List.map_id l

/-- **C8, counterexample.**  Two Regions sharing one url: reconciling `c8pool`
against `c8boxes` twice does not equal reconciling once — the second pass
re-finds the same-url slots in pool order, which differs from the order the
first pass claimed them in, so the two slots swap positions.  `setLayout` is
therefore not idempotent as claimed. -/
theorem c8_counterexample :
    c8run1.isSome ∧ c8run2.map Prod.fst ≠ c8run1.map Prod.fst := by decide

/-- **C8, amended.**  The reconciliation pass is idempotent whenever the
url-bearing Regions carry pairwise distinct urls (and the first pass
completes): running `setViews` again on its own output re-selects for each
Region the slot already holding its url at the same position, every `DISPLAY`
is a same-url position-only update that changes nothing, the same unclaimed
slots are re-cleared while already idle, and the final slot states and the
command log are exactly those of the first pass.  (With duplicate urls the
second pass can swap the positions of the same-url slots, see the
counterexample.) -/
theorem c8_idempotent_distinct_urls (slots : List Slot) (boxes : List Box)
    (r : List Slot × List (Nat × Cmd))
    (hnd : (boxes.filterMap Box.truthyUrl).Nodup)
    (h : setViews slots boxes = some r) :
    setViews r.1 boxes = some r := by
  obtain ⟨pool1, log, hgo, hr⟩ := setViews_eq_some slots boxes r h
  subst hr
  show setViews (clearFrom 0 pool1).1 boxes =
    some ((clearFrom 0 pool1).1, log ++ (clearFrom 0 pool1).2)
  have hlogu : (logUrls log).Nodup := by
    rw [go_logUrls boxes _ pool1 log hgo]
    exact hnd
  have hchar := setViewsGo_display_char boxes _ pool1 log hgo
  have hinv : PassInv ((clearFrom 0 pool1).1.map (fun s => (s, false))) log := by
    refine ⟨?_, ?_, ?_⟩
    · intro e he
      obtain ⟨u, p, s, hup, hp1, hsu, hsp, hss⟩ := hchar e he
      refine ⟨u, p, s, hup, ?_, hsu, hsp, hss⟩
      rw [List.get?_map, clearFrom_fst_get?, hp1]
      rfl
    · intro e he u' p' j s' b' hcmd' hQ' hsu'
      rw [List.get?_map] at hQ'
      obtain ⟨s₀, hF, heq⟩ := Option.map_eq_some'.mp hQ'
      injection heq with hs₀ hb₀
      rw [clearFrom_fst_get?] at hF
      obtain ⟨et, hpool, hget⟩ := Option.map_eq_some'.mp hF
      cases het2 : et.2 with
      | false =>
        exfalso
        rw [het2] at hget
        simp only [Bool.false_eq_true, if_false] at hget
        rw [← hs₀, ← hget] at hsu'
        cases hsu'
      | true =>
        rw [het2] at hget
        simp only [if_true] at hget
        have hpool' : pool1.get? j = some (s₀, true) := by
          rw [hpool]
          obtain ⟨e1, e2⟩ := et
          simp only at het2 hget
          rw [het2, hget]
        have hclaim : claimedIdx pool1 j := ⟨s₀, hpool'⟩
        rcases (setViewsGo_claimedIdx boxes _ pool1 log hgo j).mp hclaim with hbad | hmem
        · exact absurd hbad (init_unclaimed slots j)
        · obtain ⟨e', he', hej⟩ := List.mem_map.mp hmem
          obtain ⟨u₁, p₁, s₁, hup₁, hp1', hsu₁, _, _⟩ := hchar e' he'
          rw [hej, hpool'] at hp1'
          injection hp1' with hpair
          injection hpair with hs₁ _
          have huu : u₁ = u' := by
            rw [← hs₁, hs₀] at hsu₁
            rw [hsu₁] at hsu'
            exact Option.some.inj hsu'
          have hee : e' = e := by
            apply log_url_inj log hlogu e' he' e he u' p₁ p'
            · rw [hup₁, huu]
            · exact hcmd'
          rw [← hee, hej]
    · exact setViewsGo_targets_nodup boxes _ pool1 log hgo
  obtain ⟨Q', hgo2, hfst⟩ := replay_go boxes _ _ pool1 log hgo hinv
  have hlenQ : Q'.length = pool1.length := by
    rw [setViewsGo_length boxes _ Q' log hgo2, List.length_map, clearFrom_length,
      setViewsGo_length boxes _ pool1 log hgo, List.length_map]
  have hflags : ∀ n, claimedIdx Q' n ↔ claimedIdx pool1 n := by
    intro n
    rw [setViewsGo_claimedIdx boxes _ Q' log hgo2 n,
      setViewsGo_claimedIdx boxes _ pool1 log hgo n]
    have h1 := init_unclaimed (clearFrom 0 pool1).1 n
    have h2 := init_unclaimed slots n
    tauto
  have hQeq : Q' = reclaim pool1 := by
    apply pairList_ext
    · rw [hfst, map_pair_fst, reclaim_map_fst]
    · rw [reclaim_map_snd]
      exact claimedIdx_flags Q' pool1 hlenQ hflags
  unfold setViews
  rw [hgo2, hQeq]
  show some ((clearFrom 0 (reclaim pool1)).1, log ++ (clearFrom 0 (reclaim pool1)).2) =
    some ((clearFrom 0 pool1).1, log ++ (clearFrom 0 pool1).2)
  rw [clearFrom_reclaim]

/-- Witness for C8 (amended): two regions with distinct urls over the demo
pool; the second pass reproduces the first pass's outcome exactly. -/
theorem c8_witness :
    setViews (c8wRun.1) [demoBox, c8wBox] = some c8wRun :=
  c8_idempotent_distinct_urls demoPool [demoBox, c8wBox] c8wRun (by decide) (by decide)
